import Mathlib

/-!
Shallow embedding of the protein CRUD service (`proteinApp/Backend/app.py`).

Python strings are modelled as `List Char` (ASCII fragment: the service only
handles ASCII names/sequences).  Python `float` is modelled as `ℚ`: every
constant in the weight table is an exact multiple of 1/100, so all values the
service computes are exact hundredths and the rational model agrees with the
claims' stated decimal results.  The MySQL table is modelled as a list of rows
in insertion order together with the `AUTO_INCREMENT` counter; a `SELECT`
without `ORDER BY` returns rows in that stored order.  Store/connection errors
(HTTP 500) are outside the model.
-/

/-- Python strings, as lists of characters. -/
abbrev Str := List Char

/-- Characters stripped by Python `str.strip()` (ASCII whitespace:
space, tab, newline, carriage return, vertical tab, form feed),
identified by code point. -/
def isPyWs (c : Char) : Bool := c.toNat ∈ [32, 9, 10, 13, 11, 12]

/-- Python `str.upper()` on one ASCII character: a lowercase letter
(code 97–122) is shifted down by 32, anything else is unchanged. -/
def pyUpper (c : Char) : Char :=
  if 97 ≤ c.toNat ∧ c.toNat ≤ 122 then Char.ofNat (c.toNat - 32) else c

/-- Python `str.strip()`: drop whitespace from the front, then from the back. -/
def pyStrip (s : Str) : Str :=
  (((s.dropWhile isPyWs).reverse).dropWhile isPyWs).reverse

/-- Python `str.upper()` on a whole string. -/
def pyUpperStr (s : Str) : Str := s.map pyUpper

/-- The normalisation every handler applies to a submitted sequence:
`sequence.strip().upper()` (app.py lines 124 and 242). -/
def normSeq (raw : Str) : Str := pyUpperStr (pyStrip raw)

/-- Python dict `.get(key, default)` on an association list. -/
def dict_get {β : Type} (d : List (Char × β)) (k : Char) (dflt : β) : β :=
  (d.lookup k).getD dflt

/-- The 20-symbol amino-acid alphabet, `VALID_AMINO_ACIDS` (app.py line 95).
The source builds a Python set from the string `"ARNDCEQGHILKMFPSTWYV"`;
the list records the elements in the spelling order of that string literal.
Membership (the only way the handlers use the set) is order-independent. -/
def VALID_AMINO_ACIDS : List Char := "ARNDCEQGHILKMFPSTWYV".toList

/-- The fixed per-residue weight table `AMINO_ACID_WEIGHTS`
(app.py lines 96–102), in daltons. -/
def AMINO_ACID_WEIGHTS : List (Char × ℚ) :=
  [('A', 89.09),  ('R', 174.20), ('N', 132.12), ('D', 133.10),
   ('C', 121.15), ('Q', 146.15), ('E', 147.13), ('G', 75.07),
   ('H', 155.16), ('I', 131.17), ('L', 131.17), ('K', 146.19),
   ('M', 149.21), ('F', 165.19), ('P', 115.13), ('S', 105.09),
   ('T', 119.12), ('W', 204.23), ('Y', 181.19), ('V', 117.15)]

/-- Python `round(x, 2)`.  Every value reaching it in this program is an exact
multiple of 1/100 (a sum of table entries), where any tie-breaking rule is the
identity, so the model's round-half-away tie rule is never exercised. -/
def round2 (x : ℚ) : ℚ := (⌊x * 100 + 1/2⌋ : ℚ) / 100

/-- `calculate_molecular_weight` (app.py lines 104–106):
`round(sum(AMINO_ACID_WEIGHTS.get(aa, 0) for aa in sequence.upper()), 2)`. -/
def calculate_molecular_weight (sequence : Str) : ℚ :=
  round2 (((pyUpperStr sequence).map
    (fun aa => dict_get AMINO_ACID_WEIGHTS aa 0)).sum)

/-- Python `freq[k] += 1` when `k` is a key of the dict: bump the (first)
entry whose key is `k`, leave the list unchanged when `k` is absent. -/
def dictIncr (k : Char) : List (Char × ℕ) → List (Char × ℕ)
  | [] => []
  | (a, n) :: rest =>
      if a = k then (a, n + 1) :: rest else (a, n) :: dictIncr k rest

/-- `amino_acid_frequency` (app.py lines 108–113): start from a dict mapping
every alphabet symbol to 0 and bump the entry of each uppercased character
that is a key.  `order` is the iteration order of the Python set
`VALID_AMINO_ACIDS`: CPython iterates a set in hash order, which for strings
is unspecified (it varies with hash randomisation), so the embedding takes the
order as a parameter ranging over the permutations of the alphabet. -/
def amino_acid_frequency (order : List Char) (sequence : Str) :
    List (Char × ℕ) :=
  (pyUpperStr sequence).foldl (fun freq aa => dictIncr aa freq)
    (order.map (fun aa => (aa, 0)))

/-- `order` is a possible iteration order of the set `VALID_AMINO_ACIDS`:
its elements, each exactly once, in some order. -/
def validSetOrder (order : List Char) : Prop :=
  order.Nodup ∧ (∀ c ∈ order, c ∈ VALID_AMINO_ACIDS) ∧
    (∀ c ∈ VALID_AMINO_ACIDS, c ∈ order)

instance (order : List Char) : Decidable (validSetOrder order) :=
  inferInstanceAs (Decidable (order.Nodup ∧
    (∀ c ∈ order, c ∈ VALID_AMINO_ACIDS) ∧
    (∀ c ∈ VALID_AMINO_ACIDS, c ∈ order)))

/-- `len([aa for aa in freq_dict if freq_dict[aa] > 0])`
(app.py lines 136 and 247). -/
def unique_count_of (freq : List (Char × ℕ)) : ℕ :=
  ((freq.map Prod.fst).filter (fun aa => 0 < dict_get freq aa 0)).length

/-- A row of the `proteins` table (app.py lines 71–81).  `frequencies` is
stored serialized (`json.dumps` of the dict); the model keeps the dict's
key/value list, which is what the serialization determines. -/
@[ext]
structure ProteinRecord where
  id : ℕ
  name : Str
  sequence : Str
  length : ℕ
  molecular_weight : ℚ
  unique_count : ℕ
  frequencies : List (Char × ℕ)
deriving DecidableEq

/-- The `proteins` table: rows in insertion order plus the
`AUTO_INCREMENT` counter. -/
structure Store where
  rows : List ProteinRecord
  nextId : ℕ
deriving DecidableEq

/-- A fresh MySQL table: no rows, auto-increment starting at 1. -/
def initialStore : Store := ⟨[], 1⟩

/-- Error message of app.py line 127. -/
def REQUIRED_MSG : Str := "Protein name and sequence are required.".toList

/-- Error message of app.py line 131:
`f"Invalid characters: {', '.join(invalid_chars)}"`. -/
def invalid_chars_msg (cs : List Char) : Str :=
  "Invalid characters: ".toList ++
    List.intercalate ", ".toList (cs.map (fun c => [c]))

/-- Body of `jsonify({"message": "success"})`. -/
def SUCCESS_MSG : Str := "success".toList

/-- The `data` object of a successful `/analyze` response
(app.py lines 155–165). -/
structure AnalyzeData where
  name : Str
  length : ℕ
  molecular_weight : ℚ
  unique_count : ℕ
  amino_acids : List Char
  frequencies : List ℕ
deriving DecidableEq

/-- Response of POST `/analyze` (500 store errors are outside the model). -/
inductive AnalyzeResp where
  | badRequest (msg : Str)
  | success (data : AnalyzeData)
deriving DecidableEq

/-- Handler `analyze` (app.py lines 117–165), parameterised by the set
iteration order used by `amino_acid_frequency`. -/
def analyze (order : List Char) (db : Store)
    (protein_name_raw sequence_raw : Str) : AnalyzeResp × Store :=
  let protein_name := pyStrip protein_name_raw
  let sequence := normSeq sequence_raw
  if protein_name = [] ∨ sequence = [] then
    (AnalyzeResp.badRequest REQUIRED_MSG, db)
  else
    let invalid_chars := sequence.filter (fun c => ¬ (c ∈ VALID_AMINO_ACIDS))
    if invalid_chars ≠ [] then
      (AnalyzeResp.badRequest (invalid_chars_msg invalid_chars), db)
    else
      let seq_length := sequence.length
      let mol_weight := calculate_molecular_weight sequence
      let freq_dict := amino_acid_frequency order sequence
      let unique_count := unique_count_of freq_dict
      (AnalyzeResp.success
        ⟨protein_name, seq_length, mol_weight, unique_count,
         freq_dict.map Prod.fst, freq_dict.map Prod.snd⟩,
       ⟨db.rows ++
          [⟨db.nextId, protein_name, sequence, seq_length, mol_weight,
            unique_count, freq_dict⟩],
        db.nextId + 1⟩)

/-- MySQL `LIKE '%pat%'` under the default case-insensitive collation:
case-insensitive substring containment (patterns here contain no further
wildcard metacharacters). -/
def sql_like (hay pat : Str) : Bool :=
  decide ((pyUpperStr pat) <:+: (pyUpperStr hay))

/-- Handler `search` (app.py lines 167–196).  With no filters the query is
`SELECT * ... ORDER BY id DESC LIMIT 20`; with at least one filter the query
has the `LIKE` conditions but no `ORDER BY` and no `LIMIT`, so rows come back
in table order. -/
def search (db : Store) (query_name_raw query_sequence_raw : Str) :
    List ProteinRecord :=
  let query_name := pyStrip query_name_raw
  let query_sequence := normSeq query_sequence_raw
  if query_name = [] ∧ query_sequence = [] then
    (List.insertionSort (fun a b => b.id ≤ a.id) db.rows).take 20
  else
    db.rows.filter (fun r =>
      (query_name = [] || sql_like r.name query_name) &&
      (query_sequence = [] || sql_like r.sequence query_sequence))

/-- Handler `get_protein` (app.py lines 198–215): `SELECT ... WHERE id=%s`,
`fetchone`; `none` is the 404 response. -/
def get_protein (db : Store) (protein_id : ℕ) : Option ProteinRecord :=
  db.rows.find? (fun r => r.id == protein_id)

/-- Handler `delete_protein` (app.py lines 217–233): `DELETE ... WHERE id=%s`
and an unconditional success message — no existence check. -/
def delete_protein (db : Store) (protein_id : ℕ) : Str × Store :=
  (SUCCESS_MSG, ⟨db.rows.filter (fun r => !(r.id == protein_id)), db.nextId⟩)

/-- Handler `edit_protein` (app.py lines 235–264): recompute every derived
field from the submitted body and `UPDATE` the row — with no validation of
name or sequence — then report success. -/
def edit_protein (order : List Char) (db : Store) (protein_id : ℕ)
    (protein_name_raw sequence_raw : Str) : Str × Store :=
  let name := pyStrip protein_name_raw
  let sequence := normSeq sequence_raw
  let seq_length := sequence.length
  let mol_weight := calculate_molecular_weight sequence
  let freq_dict := amino_acid_frequency order sequence
  let unique_count := unique_count_of freq_dict
  (SUCCESS_MSG,
   ⟨db.rows.map (fun r =>
      if r.id = protein_id then
        ⟨r.id, name, sequence, seq_length, mol_weight, unique_count,
         freq_dict⟩
      else r),
    db.nextId⟩)

/-- The record either mutating handler writes for body `(n, s)`: stripped
name, normalised sequence, and every derived field recomputed
(app.py lines 123–124 with 133–137, and 241–248). -/
def mkRecord (order : List Char) (rid : ℕ) (n s : Str) : ProteinRecord :=
  ⟨rid, pyStrip n, normSeq s, (normSeq s).length,
   calculate_molecular_weight (normSeq s),
   unique_count_of (amino_acid_frequency order (normSeq s)),
   amino_acid_frequency order (normSeq s)⟩

/-- A record in the shape the handlers write it: name stripped, sequence
strip-then-uppercase normalised, every derived field equal to its
recomputation.  Both `analyze` (app.py lines 133–147) and `edit_protein`
(app.py lines 244–257) only ever write records of this shape. -/
def goodRecord (order : List Char) (r : ProteinRecord) : Prop :=
  pyStrip r.name = r.name ∧
  normSeq r.sequence = r.sequence ∧
  r.length = r.sequence.length ∧
  r.molecular_weight = calculate_molecular_weight r.sequence ∧
  r.frequencies = amino_acid_frequency order r.sequence ∧
  r.unique_count = unique_count_of r.frequencies

/-- Invariant of the `proteins` table: ids strictly increase down the table
(MySQL `AUTO_INCREMENT` allocation), every id is below the counter, and every
row has the handler-written shape. -/
def storeInv (order : List Char) (db : Store) : Prop :=
  (db.rows.map (fun r => r.id)).Sorted (· < ·) ∧
  (∀ r ∈ db.rows, r.id < db.nextId) ∧
  (∀ r ∈ db.rows, goodRecord order r)

/-- Stores reachable from a fresh table through the service's
state-changing handlers. -/
inductive Reaches (order : List Char) : Store → Prop
  | init : Reaches order initialStore
  | analyze_step (db : Store) (n s : Str) :
      Reaches order db → Reaches order (analyze order db n s).2
  | edit_step (db : Store) (pid : ℕ) (n s : Str) :
      Reaches order db → Reaches order (edit_protein order db pid n s).2
  | delete_step (db : Store) (pid : ℕ) :
      Reaches order db → Reaches order (delete_protein db pid).2

instance : IsTotal ProteinRecord (fun a b => b.id ≤ a.id) :=
  ⟨fun a b => le_total b.id a.id⟩

instance : IsTrans ProteinRecord (fun a b => b.id ≤ a.id) :=
  ⟨fun _ _ _ h1 h2 => le_trans h2 h1⟩

/-- Rounding an exact multiple of 1/100 to two decimals is the identity. -/
theorem round2_hundredths (n : ℤ) : round2 ((n : ℚ) / 100) = (n : ℚ) / 100 := by
  unfold round2
  have h : ((n : ℚ) / 100) * 100 + 1 / 2 = 1 / 2 + (n : ℚ) := by ring
  rw [h, Int.floor_add_int]
  norm_num

/-! ### Character-level lemmas -/

theorem charOfNat_toNat_of_upper {n : ℕ} (h1 : 65 ≤ n) (h2 : n ≤ 90) :
    (Char.ofNat n).toNat = n := by
  interval_cases n <;> decide

theorem pyUpper_toNat_of_lower {c : Char} (h1 : 97 ≤ c.toNat)
    (h2 : c.toNat ≤ 122) : (pyUpper c).toNat = c.toNat - 32 := by
  unfold pyUpper
  rw [if_pos ⟨h1, h2⟩]
  exact charOfNat_toNat_of_upper (by omega) (by omega)

theorem pyUpper_eq_self_of_not_lower {c : Char}
    (h : ¬ (97 ≤ c.toNat ∧ c.toNat ≤ 122)) : pyUpper c = c := by
  unfold pyUpper
  rw [if_neg h]

theorem pyUpper_pyUpper (c : Char) : pyUpper (pyUpper c) = pyUpper c := by
  by_cases h : 97 ≤ c.toNat ∧ c.toNat ≤ 122
  · have ht := pyUpper_toNat_of_lower h.1 h.2
    exact pyUpper_eq_self_of_not_lower (by omega)
  · simp only [pyUpper_eq_self_of_not_lower h]

theorem isPyWs_pyUpper (c : Char) : isPyWs (pyUpper c) = isPyWs c := by
  by_cases h : 97 ≤ c.toNat ∧ c.toNat ≤ 122
  · have ht := pyUpper_toNat_of_lower h.1 h.2
    unfold isPyWs
    have hl : (pyUpper c).toNat ∉ [32, 9, 10, 13, 11, 12] := by
      simp only [List.mem_cons, List.not_mem_nil, or_false]
      omega
    have hr : c.toNat ∉ [32, 9, 10, 13, 11, 12] := by
      simp only [List.mem_cons, List.not_mem_nil, or_false]
      omega
    simp [hl, hr]
  · rw [pyUpper_eq_self_of_not_lower h]

theorem pyUpperStr_pyUpperStr (s : Str) :
    pyUpperStr (pyUpperStr s) = pyUpperStr s := by
  unfold pyUpperStr
  rw [List.map_map]
  exact List.map_congr_left (fun c _ => pyUpper_pyUpper c)

/-! ### Strip lemmas -/

theorem dropWhile_dropWhile (p : α → Bool) (l : List α) :
    List.dropWhile p (List.dropWhile p l) = List.dropWhile p l := by
  cases h : List.dropWhile p l with
  | nil => simp
  | cons a t =>
      have ha : p a = false := by
        have hw := List.head_dropWhile_not p l (by rw [h]; simp)
        simp only [h, List.head_cons] at hw
        exact hw
      rw [List.dropWhile_cons, ha]
      simp

theorem pyStrip_idem (s : Str) : pyStrip (pyStrip s) = pyStrip s := by
  unfold pyStrip
  set L := s.dropWhile isPyWs with hL
  set M := (L.reverse).dropWhile isPyWs with hM
  have hMM : M.dropWhile isPyWs = M := dropWhile_dropWhile _ _
  by_cases hMnil : M = []
  · simp [hMnil]
  · have hhead : isPyWs (M.reverse.head (by simpa using hMnil)) = false := by
      have hrev : M.reverse.head (by simpa using hMnil) =
          M.getLast hMnil := List.head_reverse _
      have hsuf : M <:+ L.reverse := by
        rw [hM]; exact List.dropWhile_suffix _
      have hLnil : L.reverse ≠ [] := by
        intro hc
        exact hMnil (by rw [hM, hc]; simp)
      have hlast : M.getLast hMnil = (L.reverse).getLast hLnil :=
        List.IsSuffix.getLast hsuf hMnil
      have hlast2 : (L.reverse).getLast hLnil = L.head (by simpa using hLnil) :=
        List.getLast_reverse _
      have hLhead : isPyWs (L.head (by simpa using hLnil)) = false := by
        have := List.head_dropWhile_not isPyWs s (by rw [← hL]; simpa using hLnil)
        simpa [← hL] using this
      rw [hrev, hlast, hlast2]
      exact hLhead
    have hdw : M.reverse.dropWhile isPyWs = M.reverse := by
      have hcons := List.head_cons_tail M.reverse (by simpa using hMnil)
      rw [← hcons, List.dropWhile_cons, hhead]
      simp
    rw [hdw, List.reverse_reverse, hMM]

theorem pyStrip_pyUpperStr (s : Str) :
    pyStrip (pyUpperStr s) = pyUpperStr (pyStrip s) := by
  have hfun : (isPyWs ∘ pyUpper) = isPyWs := funext isPyWs_pyUpper
  simp only [pyStrip, pyUpperStr, List.dropWhile_map, hfun,
    ← List.map_reverse]

theorem normSeq_idem (s : Str) : normSeq (normSeq s) = normSeq s := by
  unfold normSeq
  rw [pyStrip_pyUpperStr, pyStrip_idem, pyUpperStr_pyUpperStr]

/-! ### Dict lemmas -/

theorem dictIncr_keys (k : Char) (l : List (Char × ℕ)) :
    (dictIncr k l).map Prod.fst = l.map Prod.fst := by
  induction l with
  | nil => rfl
  | cons p rest ih =>
      obtain ⟨a, n⟩ := p
      unfold dictIncr
      by_cases h : a = k
      · simp [h]
      · simp [h, ih]

theorem dictIncr_eq_of_nodup (k : Char) (l : List (Char × ℕ))
    (h : (l.map Prod.fst).Nodup) :
    dictIncr k l = l.map (fun p => if p.1 = k then (p.1, p.2 + 1) else p) := by
  induction l with
  | nil => rfl
  | cons p rest ih =>
      obtain ⟨a, n⟩ := p
      simp only [List.map_cons, List.nodup_cons] at h
      unfold dictIncr
      by_cases hak : a = k
      · subst hak
        simp only [if_pos rfl, List.map_cons]
        have : rest.map (fun p => if p.1 = a then (p.1, p.2 + 1) else p) =
            rest.map id := by
          apply List.map_congr_left
          intro q hq
          have : q.1 ≠ a := by
            intro hc
            exact h.1 (by rw [← hc]; exact List.mem_map_of_mem Prod.fst hq)
          simp [this]
        simp only [this, List.map_id]
        simp
      · simp only [if_neg hak, List.map_cons]
        rw [ih h.2]

theorem foldl_dictIncr (cs : List Char) (l : List (Char × ℕ))
    (h : (l.map Prod.fst).Nodup) :
    cs.foldl (fun freq aa => dictIncr aa freq) l =
      l.map (fun p => (p.1, p.2 + cs.count p.1)) := by
  induction cs generalizing l with
  | nil => simp
  | cons c cs ih =>
      rw [List.foldl_cons]
      rw [ih (dictIncr c l) (by rw [dictIncr_keys]; exact h)]
      rw [dictIncr_eq_of_nodup c l h, List.map_map]
      apply List.map_congr_left
      intro p _
      by_cases hpc : p.1 = c
      · simp only [Function.comp_apply, if_pos hpc, List.count_cons]
        rw [if_pos (by simp [hpc])]
        simp only [Prod.mk.injEq]
        exact ⟨trivial, by omega⟩
      · simp only [Function.comp_apply, if_neg hpc, List.count_cons]
        rw [if_neg (by simp; exact fun hc => hpc hc.symm)]
        simp

theorem amino_acid_frequency_eq (order : List Char) (s : Str)
    (h : order.Nodup) :
    amino_acid_frequency order s =
      order.map (fun aa => (aa, (pyUpperStr s).count aa)) := by
  unfold amino_acid_frequency
  rw [foldl_dictIncr _ _ (by
    rw [List.map_map,
      show (Prod.fst ∘ fun aa : Char => (aa, (0 : ℕ))) = id from rfl,
      List.map_id]
    exact h)]
  rw [List.map_map]
  apply List.map_congr_left
  intro aa _
  simp

theorem lookup_map_mk (f : Char → ℕ) (order : List Char) (c : Char)
    (h : order.Nodup) :
    (List.lookup c (order.map (fun aa => (aa, f aa)))).getD 0 =
      if c ∈ order then f c else 0 := by
  induction order with
  | nil => simp
  | cons a rest ih =>
      simp only [List.nodup_cons] at h
      simp only [List.map_cons, List.lookup_cons]
      by_cases hca : c = a
      · subst hca
        simp
      · rw [show (c == a) = false from by simp [hca]]
        simp only [ih h.2, List.mem_cons]
        by_cases hcr : c ∈ rest
        · simp [hcr, hca]
        · simp [hcr, hca]

theorem dict_get_frequency (order : List Char) (s : Str) (c : Char)
    (h : order.Nodup) :
    dict_get (amino_acid_frequency order s) c 0 =
      if c ∈ order then (pyUpperStr s).count c else 0 := by
  rw [amino_acid_frequency_eq order s h]
  exact lookup_map_mk _ order c h

/-! ### Counting lemmas -/

theorem foldl_dictIncr_keys (cs : List Char) (l : List (Char × ℕ)) :
    (cs.foldl (fun freq aa => dictIncr aa freq) l).map Prod.fst =
      l.map Prod.fst := by
  induction cs generalizing l with
  | nil => rfl
  | cons c cs ih => rw [List.foldl_cons, ih, dictIncr_keys]

theorem amino_acid_frequency_keys (order : List Char) (s : Str) :
    (amino_acid_frequency order s).map Prod.fst = order := by
  unfold amino_acid_frequency
  rw [foldl_dictIncr_keys, List.map_map,
    show (Prod.fst ∘ fun aa : Char => (aa, (0 : ℕ))) = id from rfl,
    List.map_id]

theorem sum_map_add_nat (f g : α → ℕ) (l : List α) :
    (l.map (fun a => f a + g a)).sum = (l.map f).sum + (l.map g).sum := by
  induction l with
  | nil => rfl
  | cons a t ih => simp [ih]; omega

theorem sum_map_indicator_zero (l : List Char) (c : Char) (hc : c ∉ l) :
    (l.map (fun a => if c = a then 1 else 0)).sum = 0 := by
  induction l with
  | nil => rfl
  | cons a t ih =>
      simp only [List.mem_cons] at hc
      push_neg at hc
      simp [hc.1, ih hc.2]

theorem sum_map_indicator_one (l : List Char) (c : Char) (hnd : l.Nodup)
    (hc : c ∈ l) :
    (l.map (fun a => if c = a then 1 else 0)).sum = 1 := by
  induction l with
  | nil => cases hc
  | cons a t ih =>
      simp only [List.nodup_cons] at hnd
      rcases List.mem_cons.mp hc with rfl | hct
      · simp [sum_map_indicator_zero t c hnd.1]
      · have hca : c ≠ a := by
          intro hc2
          subst hc2
          exact hnd.1 hct
        simp [hca, ih hnd.2 hct]

theorem sum_map_count (order : List Char) (s : List Char)
    (hnd : order.Nodup) (hsub : ∀ c ∈ s, c ∈ order) :
    (order.map (fun a => s.count a)).sum = s.length := by
  induction s with
  | nil => simp
  | cons c cs ih =>
      have h1 : (order.map (fun a => List.count a (c :: cs))).sum =
          (order.map (fun a => List.count a cs)).sum +
            (order.map (fun a => if c = a then 1 else 0)).sum := by
        rw [← sum_map_add_nat]
        apply congrArg
        apply List.map_congr_left
        intro a _
        rw [List.count_cons]
        by_cases hca : c = a
        · simp [hca]
        · rw [if_neg (by simpa using hca), if_neg hca]
      rw [h1, ih (fun x hx => hsub x (List.mem_cons_of_mem c hx)),
        sum_map_indicator_one order c hnd (hsub c (List.mem_cons_self c cs))]
      simp

theorem frequency_values_sum (order : List Char) (s : Str)
    (hnd : order.Nodup) (hsub : ∀ c ∈ pyUpperStr s, c ∈ order) :
    ((amino_acid_frequency order s).map Prod.snd).sum =
      (pyUpperStr s).length := by
  rw [amino_acid_frequency_eq order s hnd, List.map_map]
  rw [show (Prod.snd ∘ fun aa : Char => (aa, (pyUpperStr s).count aa)) =
      (fun aa => (pyUpperStr s).count aa) from rfl]
  exact sum_map_count order (pyUpperStr s) hnd hsub

theorem unique_count_of_frequency (order : List Char) (s : Str)
    (hnd : order.Nodup) :
    unique_count_of (amino_acid_frequency order s) =
      (order.filter (fun aa => 0 < (pyUpperStr s).count aa)).length := by
  unfold unique_count_of
  rw [amino_acid_frequency_keys]
  apply congrArg
  apply List.filter_congr
  intro aa haa
  have := dict_get_frequency order s aa hnd
  rw [this, if_pos haa]

/-! ### Alphabet lemmas -/

theorem valid_nodup : VALID_AMINO_ACIDS.Nodup := by decide

theorem validSetOrder_length {order : List Char} (h : validSetOrder order) :
    order.length = 20 := by
  obtain ⟨hnd, hsub, hsup⟩ := h
  have h1 : order.Subperm VALID_AMINO_ACIDS :=
    List.subperm_of_subset hnd (fun c hc => hsub c hc)
  have h2 : VALID_AMINO_ACIDS.Subperm order :=
    List.subperm_of_subset valid_nodup (fun c hc => hsup c hc)
  have := h1.length_le
  have := h2.length_le
  have hv : VALID_AMINO_ACIDS.length = 20 := by decide
  omega

theorem pyUpper_eq_self_of_valid {c : Char} (h : c ∈ VALID_AMINO_ACIDS) :
    pyUpper c = c := by
  rw [show VALID_AMINO_ACIDS = ['A', 'R', 'N', 'D', 'C', 'E', 'Q', 'G', 'H',
    'I', 'L', 'K', 'M', 'F', 'P', 'S', 'T', 'W', 'Y', 'V'] from rfl] at h
  simp only [List.mem_cons, List.not_mem_nil, or_false] at h
  rcases h with rfl | rfl | rfl | rfl | rfl | rfl | rfl | rfl | rfl | rfl |
    rfl | rfl | rfl | rfl | rfl | rfl | rfl | rfl | rfl | rfl <;> decide

theorem pyUpperStr_eq_self_of_valid {s : Str}
    (h : ∀ c ∈ s, c ∈ VALID_AMINO_ACIDS) : pyUpperStr s = s := by
  unfold pyUpperStr
  have h1 : s.map pyUpper = s.map id :=
    List.map_congr_left (fun c hc => pyUpper_eq_self_of_valid (h c hc))
  rw [h1, List.map_id]

theorem dict_get_of_not_mem_keys {β : Type} {d : List (Char × β)} {c : Char}
    (dflt : β) (h : c ∉ d.map Prod.fst) : dict_get d c dflt = dflt := by
  induction d with
  | nil => rfl
  | cons p rest ih =>
      obtain ⟨a, b⟩ := p
      simp only [List.map_cons, List.mem_cons] at h
      push_neg at h
      unfold dict_get at ih ⊢
      rw [List.lookup_cons, show (c == a) = false from by simp [h.1]]
      exact ih h.2

/-! ### Handler characterisations -/

theorem analyze_eq_required (order : List Char) (db : Store) (n s : Str)
    (h : pyStrip n = [] ∨ normSeq s = []) :
    analyze order db n s = (AnalyzeResp.badRequest REQUIRED_MSG, db) := by
  simp only [analyze]
  rw [if_pos h]

theorem analyze_eq_invalid (order : List Char) (db : Store) (n s : Str)
    (hn : ¬ (pyStrip n = [] ∨ normSeq s = []))
    (hv : (normSeq s).filter (fun c => ¬ (c ∈ VALID_AMINO_ACIDS)) ≠ []) :
    analyze order db n s =
      (AnalyzeResp.badRequest (invalid_chars_msg
        ((normSeq s).filter (fun c => ¬ (c ∈ VALID_AMINO_ACIDS)))), db) := by
  simp only [analyze]
  rw [if_neg hn, if_pos hv]

theorem analyze_eq_success (order : List Char) (db : Store) (n s : Str)
    (hn : ¬ (pyStrip n = [] ∨ normSeq s = []))
    (hv : (normSeq s).filter (fun c => ¬ (c ∈ VALID_AMINO_ACIDS)) = []) :
    analyze order db n s =
      (AnalyzeResp.success
        ⟨pyStrip n, (normSeq s).length,
         calculate_molecular_weight (normSeq s),
         unique_count_of (amino_acid_frequency order (normSeq s)),
         (amino_acid_frequency order (normSeq s)).map Prod.fst,
         (amino_acid_frequency order (normSeq s)).map Prod.snd⟩,
       ⟨db.rows ++ [mkRecord order db.nextId n s], db.nextId + 1⟩) := by
  simp only [analyze]
  rw [if_neg hn, if_neg (not_not_intro hv)]
  rfl

theorem edit_protein_eq (order : List Char) (db : Store) (pid : ℕ)
    (n s : Str) :
    edit_protein order db pid n s =
      (SUCCESS_MSG,
       ⟨db.rows.map (fun r =>
          if r.id = pid then mkRecord order r.id n s else r),
        db.nextId⟩) := rfl

theorem goodRecord_mkRecord (order : List Char) (rid : ℕ) (n s : Str) :
    goodRecord order (mkRecord order rid n s) :=
  ⟨pyStrip_idem n, normSeq_idem s, rfl, rfl, rfl, rfl⟩

/-! ### Store invariant -/

theorem storeInv_initial (order : List Char) : storeInv order initialStore := by
  refine ⟨by simp [initialStore], ?_, ?_⟩ <;> simp [initialStore]

theorem storeInv_analyze (order : List Char) (db : Store) (n s : Str)
    (h : storeInv order db) : storeInv order (analyze order db n s).2 := by
  by_cases h1 : pyStrip n = [] ∨ normSeq s = []
  · rw [analyze_eq_required order db n s h1]
    exact h
  by_cases h2 : (normSeq s).filter (fun c => ¬ (c ∈ VALID_AMINO_ACIDS)) = []
  · rw [analyze_eq_success order db n s h1 h2]
    obtain ⟨hsort, hbound, hgood⟩ := h
    refine ⟨?_, ?_, ?_⟩
    · show ((db.rows ++ [mkRecord order db.nextId n s]).map
        (fun r => r.id)).Sorted (· < ·)
      rw [List.map_append]
      show List.Pairwise (· < ·) _
      rw [List.pairwise_append]
      refine ⟨hsort, by simp, ?_⟩
      intro x hx y hy
      obtain ⟨r, hr, rfl⟩ := List.mem_map.mp hx
      have hyid : y = db.nextId := by
        simpa [mkRecord] using hy
      rw [hyid]
      exact hbound r hr
    · intro r hr
      rcases List.mem_append.mp hr with hold | hnew
      · exact Nat.lt_trans (hbound r hold) (Nat.lt_succ_self _)
      · have : r = mkRecord order db.nextId n s := by simpa using hnew
        rw [this]
        exact Nat.lt_succ_self _
    · intro r hr
      rcases List.mem_append.mp hr with hold | hnew
      · exact hgood r hold
      · have : r = mkRecord order db.nextId n s := by simpa using hnew
        rw [this]
        exact goodRecord_mkRecord order db.nextId n s
  · rw [analyze_eq_invalid order db n s h1 h2]
    exact h

theorem storeInv_edit (order : List Char) (db : Store) (pid : ℕ) (n s : Str)
    (h : storeInv order db) : storeInv order (edit_protein order db pid n s).2 := by
  rw [edit_protein_eq]
  obtain ⟨hsort, hbound, hgood⟩ := h
  have hid : ∀ r : ProteinRecord,
      (if r.id = pid then mkRecord order r.id n s else r).id = r.id := by
    intro r
    by_cases hr : r.id = pid <;> simp [hr, mkRecord]
  refine ⟨?_, ?_, ?_⟩
  · show ((db.rows.map fun r =>
      if r.id = pid then mkRecord order r.id n s else r).map
        (fun r => r.id)).Sorted (· < ·)
    rw [List.map_map]
    have : (db.rows.map fun r =>
        ((if r.id = pid then mkRecord order r.id n s else r).id)) =
        db.rows.map (fun r => r.id) :=
      List.map_congr_left (fun r _ => hid r)
    rw [show ((fun r : ProteinRecord => r.id) ∘ fun r =>
      if r.id = pid then mkRecord order r.id n s else r) =
        (fun r => (if r.id = pid then mkRecord order r.id n s else r).id)
      from rfl, this]
    exact hsort
  · intro r hr
    obtain ⟨x, hx, rfl⟩ := List.mem_map.mp hr
    show (if x.id = pid then mkRecord order x.id n s else x).id < db.nextId
    rw [hid x]
    exact hbound x hx
  · intro r hr
    obtain ⟨x, hx, rfl⟩ := List.mem_map.mp hr
    by_cases hxp : x.id = pid
    · simp only [if_pos hxp]
      exact goodRecord_mkRecord order x.id n s
    · simp only [if_neg hxp]
      exact hgood x hx

theorem storeInv_delete (order : List Char) (db : Store) (pid : ℕ)
    (h : storeInv order db) : storeInv order (delete_protein db pid).2 := by
  obtain ⟨hsort, hbound, hgood⟩ := h
  refine ⟨?_, ?_, ?_⟩
  · show (((delete_protein db pid).2.rows).map (fun r => r.id)).Sorted (· < ·)
    have hsub : (delete_protein db pid).2.rows.Sublist db.rows :=
      List.filter_sublist _
    exact List.Pairwise.sublist (hsub.map _) hsort
  · intro r hr
    exact hbound r ((List.filter_sublist _).subset hr)
  · intro r hr
    exact hgood r ((List.filter_sublist _).subset hr)

theorem reaches_storeInv (order : List Char) (db : Store)
    (h : Reaches order db) : storeInv order db := by
  induction h with
  | init => exact storeInv_initial order
  | analyze_step db n s _ ih => exact storeInv_analyze order db n s ih
  | edit_step db pid n s _ ih => exact storeInv_edit order db pid n s ih
  | delete_step db pid _ ih => exact storeInv_delete order db pid ih

/-! ### Search and lookup characterisations -/

theorem search_no_filters (db : Store) (qn qs : Str)
    (h1 : pyStrip qn = []) (h2 : normSeq qs = []) :
    search db qn qs =
      (List.insertionSort (fun a b => b.id ≤ a.id) db.rows).take 20 := by
  simp only [search]
  rw [if_pos ⟨h1, h2⟩]

theorem search_filtered (db : Store) (qn qs : Str)
    (h : ¬ (pyStrip qn = [] ∧ normSeq qs = [])) :
    search db qn qs =
      db.rows.filter (fun r =>
        (pyStrip qn = [] || sql_like r.name (pyStrip qn)) &&
        (normSeq qs = [] || sql_like r.sequence (normSeq qs))) := by
  simp only [search]
  rw [if_neg h]

theorem find?_append_new (rows : List ProteinRecord) (rec : ProteinRecord)
    (pid : ℕ) (hb : ∀ r ∈ rows, r.id ≠ pid) (hrec : rec.id = pid) :
    (rows ++ [rec]).find? (fun r => r.id == pid) = some rec := by
  rw [List.find?_append]
  have hnone : rows.find? (fun r => r.id == pid) = none :=
    List.find?_eq_none.mpr (fun x hx => by simpa using hb x hx)
  rw [hnone]
  simp [hrec]

/-! ### More helpers -/

theorem calculate_molecular_weight_nil : calculate_molecular_weight [] = 0 := by
  have h := round2_hundredths 0
  norm_num at h
  exact h

theorem pyUpperStr_normSeq (s : Str) : pyUpperStr (normSeq s) = normSeq s := by
  unfold normSeq
  exact pyUpperStr_pyUpperStr (pyStrip s)

theorem dict_get_zero_map (order : List Char) (c : Char) :
    dict_get (order.map (fun aa => (aa, (0 : ℕ)))) c 0 = 0 := by
  induction order with
  | nil => rfl
  | cons a rest ih =>
      unfold dict_get at ih ⊢
      rw [List.map_cons, List.lookup_cons]
      by_cases hca : c = a
      · simp [hca]
      · rw [show (c == a) = false from by simp [hca]]
        exact ih

theorem unique_count_of_zero_map (order : List Char) :
    unique_count_of (order.map (fun aa => (aa, (0 : ℕ)))) = 0 := by
  unfold unique_count_of
  rw [List.length_eq_zero]
  rw [List.filter_eq_nil_iff]
  intro aa _
  simp [dict_get_zero_map]

theorem mem_intersperse {x : Str} (sep : Str) :
    ∀ {l : List Str}, x ∈ l → x ∈ l.intersperse sep
  | [], h => absurd h (List.not_mem_nil x)
  | [_], h => h
  | a :: b :: t, h => by
      rw [List.intersperse_cons₂]
      rcases List.mem_cons.mp h with rfl | h2
      · exact List.mem_cons_self _ _
      · exact List.mem_cons_of_mem _ (List.mem_cons_of_mem _
          (mem_intersperse sep h2))

theorem mem_invalid_chars_msg {cs : List Char} {c : Char} (h : c ∈ cs) :
    c ∈ invalid_chars_msg cs := by
  unfold invalid_chars_msg
  apply List.mem_append_right
  unfold List.intercalate
  rw [List.mem_join]
  exact ⟨[c], mem_intersperse _ (List.mem_map_of_mem _ h),
    List.mem_singleton_self c⟩

theorem sum_ite_key (d : List (Char × ℚ)) (c : Char)
    (hd : (d.map Prod.fst).Nodup) :
    (d.map (fun p => if c = p.1 then p.2 else 0)).sum =
      dict_get d c 0 := by
  induction d with
  | nil => rfl
  | cons p rest ih =>
      obtain ⟨a, w⟩ := p
      simp only [List.map_cons, List.nodup_cons] at hd
      rw [List.map_cons, List.sum_cons]
      unfold dict_get
      rw [List.lookup_cons]
      by_cases hca : c = a
      · subst hca
        rw [show (c == c) = true from by simp]
        have hz : (rest.map (fun p => if c = p.1 then p.2 else 0)).sum = 0 := by
          apply List.sum_eq_zero
          intro x hx
          obtain ⟨q, hq, rfl⟩ := List.mem_map.mp hx
          rw [if_neg]
          intro hc
          exact hd.1 (by rw [hc]; exact List.mem_map_of_mem Prod.fst hq)
        rw [if_pos rfl, hz]
        show w + 0 = (some w).getD 0
        simp
      · rw [if_neg hca, show (c == a) = false from by simp [hca]]
        rw [zero_add, ih hd.2]
        rfl

theorem sum_get_eq_sum_table (d : List (Char × ℚ))
    (hd : (d.map Prod.fst).Nodup) (s : List Char) :
    (s.map (fun aa => dict_get d aa 0)).sum =
      (d.map (fun p => p.2 * (s.count p.1 : ℚ))).sum := by
  induction s with
  | nil => simp
  | cons c cs ih =>
      rw [List.map_cons, List.sum_cons, ih]
      have hsplit : (d.map (fun p => p.2 * ((List.count p.1 (c :: cs) : ℕ) : ℚ))).sum =
          (d.map (fun p => p.2 * (List.count p.1 cs : ℚ) +
            (if c = p.1 then p.2 else 0))).sum := by
        apply congrArg
        apply List.map_congr_left
        intro p _
        rw [List.count_cons]
        by_cases hcp : c = p.1
        · rw [if_pos hcp, if_pos (by simp [hcp])]
          push_cast
          ring
        · rw [if_neg hcp, if_neg (by simpa using hcp)]
          push_cast
          ring
      rw [hsplit, List.sum_map_add, sum_ite_key d c hd]
      ring

/-! ### Claim theorems -/

/-- C9: a delete request always returns the success message, and when no
stored record has the requested id the store is completely unchanged — the
handler performs no existence check before the `DELETE`. -/
theorem delete_nonexistent_success (db : Store) (pid : ℕ) :
    (delete_protein db pid).1 = SUCCESS_MSG ∧
    ((∀ r ∈ db.rows, r.id ≠ pid) →
      delete_protein db pid = (SUCCESS_MSG, db)) := by
  constructor
  · rfl
  · intro h
    unfold delete_protein
    have hf : db.rows.filter (fun r => !(r.id == pid)) = db.rows :=
      List.filter_eq_self.mpr (fun r hr => by simpa using h r hr)
    rw [hf]

theorem delete_nonexistent_success_witness :
    delete_protein initialStore 1 = (SUCCESS_MSG, initialStore) :=
  (delete_nonexistent_success initialStore 1).2 (by decide)

/-- C10: an edit whose body yields an empty stripped name and an empty
stripped sequence (fields omitted, or whitespace only) succeeds with the
success message and overwrites every row with the requested id by a record
with empty name, empty sequence, length 0, molecular weight 0, unique count
0, and the all-zero frequency mapping. -/
theorem edit_blank_overwrites (order : List Char) (db : Store) (pid : ℕ)
    (nraw sraw : Str) (hn : pyStrip nraw = []) (hs : pyStrip sraw = []) :
    edit_protein order db pid nraw sraw =
      (SUCCESS_MSG,
       ⟨db.rows.map (fun r =>
          if r.id = pid then
            ⟨r.id, [], [], 0, 0, 0, order.map (fun aa => (aa, 0))⟩
          else r),
        db.nextId⟩) := by
  have hseq : normSeq sraw = [] := by
    unfold normSeq
    rw [hs]
    rfl
  rw [edit_protein_eq]
  have hmk : ∀ rid : ℕ, mkRecord order rid nraw sraw =
      ⟨rid, [], [], 0, 0, 0, order.map (fun aa => (aa, 0))⟩ := by
    intro rid
    unfold mkRecord
    rw [hn, hseq]
    simp [show amino_acid_frequency order [] =
        order.map (fun aa => (aa, 0)) from rfl,
      unique_count_of_zero_map, calculate_molecular_weight_nil]
  have hrows : db.rows.map (fun r =>
      if r.id = pid then mkRecord order r.id nraw sraw else r) =
      db.rows.map (fun r =>
        if r.id = pid then
          ⟨r.id, [], [], 0, 0, 0, order.map (fun aa => (aa, 0))⟩
        else r) := by
    apply List.map_congr_left
    intro r _
    by_cases hr : r.id = pid
    · rw [if_pos hr, if_pos hr, hmk]
    · rw [if_neg hr, if_neg hr]
  rw [hrows]

theorem edit_blank_overwrites_witness :
    edit_protein VALID_AMINO_ACIDS
      (analyze VALID_AMINO_ACIDS initialStore "p".toList "AAC".toList).2
      1 [] [] =
    (SUCCESS_MSG,
     ⟨(analyze VALID_AMINO_ACIDS initialStore "p".toList
         "AAC".toList).2.rows.map (fun r =>
        if r.id = 1 then
          ⟨r.id, [], [], 0, 0, 0,
           VALID_AMINO_ACIDS.map (fun aa => (aa, 0))⟩
        else r),
      (analyze VALID_AMINO_ACIDS initialStore "p".toList
        "AAC".toList).2.nextId⟩) :=
  edit_blank_overwrites VALID_AMINO_ACIDS
    (analyze VALID_AMINO_ACIDS initialStore "p".toList "AAC".toList).2
    1 [] [] (by decide) (by decide)

/-- C4: `/analyze` rejects with 400 and an unchanged store both when the
stripped name or stripped-uppercased sequence is empty (fixed "required"
message) and when the sequence contains characters outside the alphabet; in
the latter case the error message lists every offending character occurrence
(each offending character is a member of the message). -/
theorem analyze_rejects_bad_input (order : List Char) (db : Store)
    (n s : Str) :
    ((pyStrip n = [] ∨ normSeq s = []) →
      analyze order db n s = (AnalyzeResp.badRequest REQUIRED_MSG, db)) ∧
    (¬ (pyStrip n = [] ∨ normSeq s = []) →
      ∀ c ∈ normSeq s, c ∉ VALID_AMINO_ACIDS →
        analyze order db n s =
          (AnalyzeResp.badRequest (invalid_chars_msg
            ((normSeq s).filter
              (fun c => ¬ (c ∈ VALID_AMINO_ACIDS)))), db) ∧
        c ∈ invalid_chars_msg
          ((normSeq s).filter (fun c => ¬ (c ∈ VALID_AMINO_ACIDS)))) := by
  constructor
  · exact analyze_eq_required order db n s
  · intro hne c hc hcv
    have hmem : c ∈ (normSeq s).filter
        (fun c => ¬ (c ∈ VALID_AMINO_ACIDS)) :=
      List.mem_filter.mpr ⟨hc, by simpa using hcv⟩
    exact ⟨analyze_eq_invalid order db n s hne (List.ne_nil_of_mem hmem),
      mem_invalid_chars_msg hmem⟩

theorem analyze_rejects_bad_input_witness :
    (analyze VALID_AMINO_ACIDS initialStore [] "AAC".toList =
      (AnalyzeResp.badRequest REQUIRED_MSG, initialStore)) ∧
    (analyze VALID_AMINO_ACIDS initialStore "p".toList "AXA".toList =
      (AnalyzeResp.badRequest (invalid_chars_msg
        ((normSeq "AXA".toList).filter
          (fun c => ¬ (c ∈ VALID_AMINO_ACIDS)))), initialStore) ∧
     'X' ∈ invalid_chars_msg
       ((normSeq "AXA".toList).filter
         (fun c => ¬ (c ∈ VALID_AMINO_ACIDS)))) :=
  ⟨(analyze_rejects_bad_input VALID_AMINO_ACIDS initialStore []
      "AAC".toList).1 (Or.inl (by decide)),
   (analyze_rejects_bad_input VALID_AMINO_ACIDS initialStore "p".toList
      "AXA".toList).2 (by decide) 'X' (by decide) (by decide)⟩

/-- C3: the molecular weight is the rounded sum of the fixed 20-entry table
over the sequence's characters (equivalently, table entry times occurrence
count, summed over the table); characters whose uppercase form is outside
the table contribute zero; and on `"AAC"` the service computes weight
`round(89.09*2 + 121.15, 2) = 299.33`, length 3, frequencies A ↦ 2, C ↦ 1,
all other symbols ↦ 0, and unique count 2. -/
theorem molecular_weight_spec :
    (∀ s : Str, calculate_molecular_weight s =
      round2 ((AMINO_ACID_WEIGHTS.map
        (fun p => p.2 * ((pyUpperStr s).count p.1 : ℚ))).sum)) ∧
    (∀ (s t : Str) (c : Char),
      pyUpper c ∉ AMINO_ACID_WEIGHTS.map Prod.fst →
      calculate_molecular_weight (s ++ c :: t) =
        calculate_molecular_weight (s ++ t)) ∧
    calculate_molecular_weight "AAC".toList = 299.33 ∧
    round2 (89.09 * 2 + 121.15) = 299.33 ∧
    (normSeq "AAC".toList).length = 3 ∧
    dict_get (amino_acid_frequency VALID_AMINO_ACIDS "AAC".toList) 'A' 0 = 2 ∧
    dict_get (amino_acid_frequency VALID_AMINO_ACIDS "AAC".toList) 'C' 0 = 1 ∧
    (∀ aa : Char, aa ≠ 'A' → aa ≠ 'C' →
      dict_get (amino_acid_frequency VALID_AMINO_ACIDS "AAC".toList) aa 0
        = 0) ∧
    unique_count_of (amino_acid_frequency VALID_AMINO_ACIDS "AAC".toList)
      = 2 := by
  refine ⟨?_, ?_, ?_, ?_, by decide, by decide, by decide, ?_, by decide⟩
  · intro s
    unfold calculate_molecular_weight
    rw [sum_get_eq_sum_table AMINO_ACID_WEIGHTS (by decide) (pyUpperStr s)]
  · intro s t c h
    unfold calculate_molecular_weight
    unfold pyUpperStr
    rw [List.map_append, List.map_cons, List.map_append,
      List.map_append, List.map_cons, List.map_append]
    rw [List.sum_append, List.sum_append, List.sum_cons]
    rw [dict_get_of_not_mem_keys 0 h, zero_add]
  · have h1 : pyUpperStr "AAC".toList = ['A', 'A', 'C'] := by decide
    unfold calculate_molecular_weight
    rw [h1]
    rw [show (List.map (fun aa => dict_get AMINO_ACID_WEIGHTS aa 0)
          ['A', 'A', 'C']).sum =
        (89.09 : ℚ) + (89.09 + (121.15 + 0)) from rfl]
    rw [show (89.09 : ℚ) + (89.09 + (121.15 + 0)) = (29933 : ℤ) / 100 by
      norm_num]
    rw [round2_hundredths]
    norm_num
  · rw [show (89.09 * 2 + 121.15 : ℚ) = (29933 : ℤ) / 100 by norm_num,
      round2_hundredths]
    norm_num
  · intro aa h1 h2
    rw [dict_get_frequency _ _ _ valid_nodup]
    by_cases hv : aa ∈ VALID_AMINO_ACIDS
    · rw [if_pos hv, show pyUpperStr "AAC".toList = ['A', 'A', 'C'] from
        by decide]
      exact List.count_eq_zero.mpr (by simp [h1, h2])
    · rw [if_neg hv]

theorem molecular_weight_spec_witness :
    pyUpper 'x' ∉ AMINO_ACID_WEIGHTS.map Prod.fst ∧
    calculate_molecular_weight ("A".toList ++ 'x' :: "C".toList) =
      calculate_molecular_weight ("A".toList ++ "C".toList) :=
  ⟨by decide,
   molecular_weight_spec.2.1 "A".toList "C".toList 'x' (by decide)⟩

/-- C6: for a stored record in handler-written shape whose sequence is over
the alphabet, the frequency values sum to the length field, the length field
is the character count of the stored sequence, the unique count is the
number of dict entries with positive count, and it never exceeds 20. -/
theorem record_statistics (order : List Char) (r : ProteinRecord)
    (hord : validSetOrder order) (hg : goodRecord order r)
    (hs : ∀ c ∈ r.sequence, c ∈ VALID_AMINO_ACIDS) :
    ((r.frequencies.map Prod.snd).sum = r.length) ∧
    r.length = r.sequence.length ∧
    r.unique_count = (r.frequencies.filter (fun p => 0 < p.2)).length ∧
    r.unique_count ≤ 20 := by
  obtain ⟨hnd, hsub, hsup⟩ := hord
  obtain ⟨hgn, hgs, hglen, hgmw, hgfreq, hguc⟩ := hg
  have hup : pyUpperStr r.sequence = r.sequence :=
    pyUpperStr_eq_self_of_valid hs
  refine ⟨?_, hglen, ?_, ?_⟩
  · rw [hgfreq, hglen]
    rw [frequency_values_sum order r.sequence hnd
      (by rw [hup]; intro c hc; exact hsup c (hs c hc))]
    rw [hup]
  · rw [hguc, hgfreq]
    rw [unique_count_of_frequency order r.sequence hnd]
    rw [amino_acid_frequency_eq order r.sequence hnd]
    rw [List.filter_map, List.length_map]
    rfl
  · rw [hguc, hgfreq, unique_count_of_frequency order r.sequence hnd]
    calc (order.filter (fun aa => 0 < (pyUpperStr r.sequence).count aa)).length
        ≤ order.length := List.length_filter_le _ _
      _ = 20 := validSetOrder_length ⟨hnd, hsub, hsup⟩

theorem record_statistics_witness :
    (((mkRecord VALID_AMINO_ACIDS 1 "p".toList
        "AAC".toList).frequencies.map Prod.snd).sum =
      (mkRecord VALID_AMINO_ACIDS 1 "p".toList "AAC".toList).length) ∧
    (mkRecord VALID_AMINO_ACIDS 1 "p".toList "AAC".toList).length =
      (mkRecord VALID_AMINO_ACIDS 1 "p".toList "AAC".toList).sequence.length ∧
    (mkRecord VALID_AMINO_ACIDS 1 "p".toList "AAC".toList).unique_count =
      ((mkRecord VALID_AMINO_ACIDS 1 "p".toList
        "AAC".toList).frequencies.filter (fun p => 0 < p.2)).length ∧
    (mkRecord VALID_AMINO_ACIDS 1 "p".toList "AAC".toList).unique_count
      ≤ 20 :=
  record_statistics VALID_AMINO_ACIDS
    (mkRecord VALID_AMINO_ACIDS 1 "p".toList "AAC".toList)
    (by decide)
    (goodRecord_mkRecord VALID_AMINO_ACIDS 1 "p".toList "AAC".toList)
    (by decide)

/-- C2 (amended): the frequency dict maps exactly the 20 alphabet symbols
(absent symbols to 0, present ones to their occurrence count in the
uppercased sequence), and its key order — hence the order of the serialized
`amino_acids`/`frequencies` arrays of a successful `/analyze` response — is
the iteration order of the Python set `VALID_AMINO_ACIDS`, an unspecified
permutation of the alphabet rather than the fixed spelling order. -/
theorem frequency_shape (order : List Char) (db : Store) (n s : Str)
    (hord : validSetOrder order) :
    ((amino_acid_frequency order s).map Prod.fst = order) ∧
    (∀ c : Char, c ∈ (amino_acid_frequency order s).map Prod.fst ↔
      c ∈ VALID_AMINO_ACIDS) ∧
    (∀ aa ∈ order,
      dict_get (amino_acid_frequency order s) aa 0 =
        (pyUpperStr s).count aa) ∧
    (∀ (d : AnalyzeData) (db2 : Store),
      analyze order db n s = (AnalyzeResp.success d, db2) →
      d.amino_acids = order ∧
      d.frequencies = order.map (fun aa => (normSeq s).count aa)) := by
  obtain ⟨hnd, hsub, hsup⟩ := hord
  refine ⟨amino_acid_frequency_keys order s, ?_, ?_, ?_⟩
  · intro c
    rw [amino_acid_frequency_keys]
    exact ⟨fun h => hsub c h, fun h => hsup c h⟩
  · intro aa haa
    rw [dict_get_frequency order s aa hnd, if_pos haa]
  · intro d db2 hd
    by_cases h1 : pyStrip n = [] ∨ normSeq s = []
    · rw [analyze_eq_required order db n s h1] at hd
      simp at hd
    by_cases h2 : (normSeq s).filter (fun c => ¬ (c ∈ VALID_AMINO_ACIDS)) = []
    · rw [analyze_eq_success order db n s h1 h2, Prod.mk.injEq,
        AnalyzeResp.success.injEq] at hd
      obtain ⟨hdd, _⟩ := hd
      subst hdd
      constructor
      · exact amino_acid_frequency_keys order (normSeq s)
      · show (amino_acid_frequency order (normSeq s)).map Prod.snd = _
        rw [amino_acid_frequency_eq order (normSeq s) hnd, List.map_map]
        rw [show (Prod.snd ∘ fun aa : Char =>
            (aa, (pyUpperStr (normSeq s)).count aa)) =
          (fun aa => (pyUpperStr (normSeq s)).count aa) from rfl]
        rw [pyUpperStr_normSeq]
    · rw [analyze_eq_invalid order db n s h1 h2] at hd
      simp at hd

theorem frequency_shape_witness :
    (amino_acid_frequency VALID_AMINO_ACIDS "AAC".toList).map Prod.fst =
      VALID_AMINO_ACIDS :=
  (frequency_shape VALID_AMINO_ACIDS initialStore "p".toList "AAC".toList
    (by decide)).1

/-- C2 counterexample: the reversed alphabet is a legitimate iteration order
of the set `VALID_AMINO_ACIDS` (its elements, each once), and under it the
frequency dict's key list is not the fixed alphabet order, so the code does
not guarantee the claimed fixed order A,R,N,D,…,V. -/
theorem frequency_order_not_alphabet :
    validSetOrder VALID_AMINO_ACIDS.reverse ∧
    (amino_acid_frequency VALID_AMINO_ACIDS.reverse []).map Prod.fst ≠
      VALID_AMINO_ACIDS := by decide

/-- C5 (amended): with no filters, search returns at most 20 records sorted
by descending id, all drawn from the table; with at least one filter the
query has no ORDER BY and no LIMIT, so the result is exactly the set of rows
matching every given filter, in table order (a sublist of the stored rows)
and uncapped. -/
theorem search_order_and_cap (db : Store) (qn qs : Str) :
    (pyStrip qn = [] → normSeq qs = [] →
      (search db qn qs).length ≤ 20 ∧
      List.Sorted (fun a b : ProteinRecord => b.id ≤ a.id)
        (search db qn qs) ∧
      ∀ r ∈ search db qn qs, r ∈ db.rows) ∧
    (¬ (pyStrip qn = [] ∧ normSeq qs = []) →
      (search db qn qs).Sublist db.rows ∧
      ∀ r : ProteinRecord, r ∈ search db qn qs ↔ r ∈ db.rows ∧
        (pyStrip qn = [] ∨ sql_like r.name (pyStrip qn) = true) ∧
        (normSeq qs = [] ∨ sql_like r.sequence (normSeq qs) = true)) := by
  constructor
  · intro h1 h2
    rw [search_no_filters db qn qs h1 h2]
    refine ⟨List.length_take_le _ _, ?_, ?_⟩
    · exact List.Pairwise.sublist (List.take_sublist _ _)
        (List.sorted_insertionSort _ _)
    · intro r hr
      exact (List.mem_insertionSort _).mp (List.take_subset _ _ hr)
  · intro h
    rw [search_filtered db qn qs h]
    refine ⟨List.filter_sublist _, ?_⟩
    intro r
    simp only [List.mem_filter, Bool.and_eq_true, Bool.or_eq_true,
      decide_eq_true_eq]

theorem search_order_and_cap_witness :
    ((search initialStore [] []).length ≤ 20 ∧
     List.Sorted (fun a b : ProteinRecord => b.id ≤ a.id)
       (search initialStore [] []) ∧
     ∀ r ∈ search initialStore [] [], r ∈ initialStore.rows) ∧
    ((search initialStore "a".toList []).Sublist initialStore.rows ∧
     ∀ r : ProteinRecord, r ∈ search initialStore "a".toList [] ↔
       r ∈ initialStore.rows ∧
       (pyStrip "a".toList = [] ∨
         sql_like r.name (pyStrip "a".toList) = true) ∧
       (normSeq [] = [] ∨ sql_like r.sequence (normSeq []) = true)) :=
  ⟨(search_order_and_cap initialStore [] []).1 (by decide) (by decide),
   (search_order_and_cap initialStore "a".toList []).2 (by decide)⟩

/-- C5 counterexample: on a table holding two records (ids 1 and 2) whose
names both contain "a", a name-filtered search returns them in table order
[1, 2] — not descending by id — because the filtered query has no ORDER BY
clause. -/
theorem search_filtered_not_desc :
    ((search (analyze VALID_AMINO_ACIDS
        (analyze VALID_AMINO_ACIDS initialStore "a".toList "AAC".toList).2
        "a".toList "AAC".toList).2 "a".toList []).map (fun r => r.id)
      = [1, 2]) ∧
    ¬ List.Sorted (fun a b : ℕ => b ≤ a) [1, 2] := by decide

/-- C1 (amended): the alphabet check is enforced at creation only: `/analyze`
rejects any sequence containing an out-of-alphabet character after
uppercasing, leaving the store unchanged, so every record inserted by
`/analyze` has an all-alphabet sequence — but `/edit/{id}` performs no such
validation (see the counterexample storing `"XX"`). -/
theorem create_validation_only (order : List Char) (db : Store) (n s : Str) :
    ((∃ c ∈ normSeq s, c ∉ VALID_AMINO_ACIDS) →
      ∃ msg, analyze order db n s = (AnalyzeResp.badRequest msg, db)) ∧
    (∀ r ∈ (analyze order db n s).2.rows,
      r ∈ db.rows ∨ ∀ c ∈ r.sequence, c ∈ VALID_AMINO_ACIDS) := by
  constructor
  · rintro ⟨c, hc, hcv⟩
    by_cases h1 : pyStrip n = [] ∨ normSeq s = []
    · exact ⟨REQUIRED_MSG, analyze_eq_required order db n s h1⟩
    · have hmem : c ∈ (normSeq s).filter
          (fun c => ¬ (c ∈ VALID_AMINO_ACIDS)) :=
        List.mem_filter.mpr ⟨hc, by simpa using hcv⟩
      exact ⟨_, analyze_eq_invalid order db n s h1 (List.ne_nil_of_mem hmem)⟩
  · intro r hr
    by_cases h1 : pyStrip n = [] ∨ normSeq s = []
    · rw [analyze_eq_required order db n s h1] at hr
      exact Or.inl hr
    by_cases h2 : (normSeq s).filter (fun c => ¬ (c ∈ VALID_AMINO_ACIDS)) = []
    · rw [analyze_eq_success order db n s h1 h2] at hr
      rcases List.mem_append.mp hr with hold | hnew
      · exact Or.inl hold
      · right
        have hrr : r = mkRecord order db.nextId n s := by simpa using hnew
        rw [hrr]
        intro c hc
        have hc2 : c ∈ normSeq s := hc
        have := List.filter_eq_nil_iff.mp h2 c hc2
        simpa using this
    · rw [analyze_eq_invalid order db n s h1 h2] at hr
      exact Or.inl hr

theorem create_validation_only_witness :
    ∃ msg, analyze VALID_AMINO_ACIDS initialStore "p".toList "AXA".toList =
      (AnalyzeResp.badRequest msg, initialStore) :=
  (create_validation_only VALID_AMINO_ACIDS initialStore "p".toList
    "AXA".toList).1 ⟨'X', by decide, by decide⟩

/-- C1 counterexample: after creating a valid record with id 1, an edit
submitting the sequence `"xx"` succeeds and stores the uppercased sequence
`"XX"`, which contains the non-alphabet character `X` — so the claimed
enforcement at update does not exist and an invalid sequence is stored. -/
theorem edit_stores_invalid_sequence :
    ((edit_protein VALID_AMINO_ACIDS
        (analyze VALID_AMINO_ACIDS initialStore "p".toList "AAC".toList).2
        1 "p".toList "xx".toList).1 = SUCCESS_MSG) ∧
    ((edit_protein VALID_AMINO_ACIDS
        (analyze VALID_AMINO_ACIDS initialStore "p".toList "AAC".toList).2
        1 "p".toList "xx".toList).2.rows.map (fun r => r.sequence) =
      ["XX".toList]) ∧
    'X' ∈ "XX".toList ∧ 'X' ∉ VALID_AMINO_ACIDS := by decide

/-- C7: when `/analyze` succeeds on a store whose row ids are all below the
auto-increment counter, fetching the counter's id from the resulting store
returns a record carrying the response's name and derived fields, with the
normalised (stripped, uppercased) submitted sequence. -/
theorem analyze_then_get (order : List Char) (db : Store) (n s : Str)
    (d : AnalyzeData) (db2 : Store)
    (hb : ∀ r ∈ db.rows, r.id < db.nextId)
    (h : analyze order db n s = (AnalyzeResp.success d, db2)) :
    ∃ r : ProteinRecord, get_protein db2 db.nextId = some r ∧
      r.name = d.name ∧ r.sequence = normSeq s ∧ r.length = d.length ∧
      r.molecular_weight = d.molecular_weight ∧
      r.unique_count = d.unique_count ∧
      r.frequencies.map Prod.fst = d.amino_acids ∧
      r.frequencies.map Prod.snd = d.frequencies := by
  by_cases h1 : pyStrip n = [] ∨ normSeq s = []
  · rw [analyze_eq_required order db n s h1] at h
    simp at h
  by_cases h2 : (normSeq s).filter (fun c => ¬ (c ∈ VALID_AMINO_ACIDS)) = []
  · rw [analyze_eq_success order db n s h1 h2, Prod.mk.injEq,
      AnalyzeResp.success.injEq] at h
    obtain ⟨hd, hdb⟩ := h
    subst hd
    subst hdb
    refine ⟨mkRecord order db.nextId n s, ?_, rfl, rfl, rfl, rfl, rfl,
      rfl, rfl⟩
    show List.find? (fun r => r.id == db.nextId)
      (db.rows ++ [mkRecord order db.nextId n s]) =
        some (mkRecord order db.nextId n s)
    exact find?_append_new db.rows _ db.nextId
      (fun r hr => ne_of_lt (hb r hr)) rfl
  · rw [analyze_eq_invalid order db n s h1 h2] at h
    simp at h

theorem analyze_then_get_witness :
    ∃ r : ProteinRecord,
      get_protein (analyze VALID_AMINO_ACIDS initialStore "p".toList
        "AAC".toList).2 1 = some r ∧ r.sequence = "AAC".toList := by
  obtain ⟨r, hget, _, hseq, _⟩ :=
    analyze_then_get VALID_AMINO_ACIDS initialStore "p".toList "AAC".toList
      _ _ (by decide) rfl
  exact ⟨r, hget, by rw [hseq]; decide⟩

/-- C8: editing a record of a reachable store with its own stored name and
sequence reports success and leaves the entire store — in particular every
derived field of the record — unchanged. -/
theorem edit_self_noop (order : List Char) (db : Store) (r : ProteinRecord)
    (hreach : Reaches order db) (hmem : r ∈ db.rows) :
    edit_protein order db r.id r.name r.sequence = (SUCCESS_MSG, db) := by
  obtain ⟨hsort, hbound, hgood⟩ := reaches_storeInv order db hreach
  have hnodupids : (db.rows.map (fun x => x.id)).Nodup :=
    List.Pairwise.imp (fun h => ne_of_lt h) hsort
  obtain ⟨hgn, hgs, hglen, hgmw, hgfreq, hguc⟩ := hgood r hmem
  rw [edit_protein_eq]
  have hrows : db.rows.map (fun x =>
      if x.id = r.id then mkRecord order x.id r.name r.sequence else x) =
      db.rows.map id := by
    apply List.map_congr_left
    intro x hx
    by_cases hxid : x.id = r.id
    · have hxr : x = r := List.inj_on_of_nodup_map hnodupids hx hmem hxid
      subst hxr
      rw [if_pos hxid]
      show mkRecord order x.id x.name x.sequence = x
      apply ProteinRecord.ext
      · rfl
      · exact hgn
      · exact hgs
      · show (normSeq x.sequence).length = x.length
        rw [hgs]
        exact hglen.symm
      · show calculate_molecular_weight (normSeq x.sequence) =
          x.molecular_weight
        rw [hgs]
        exact hgmw.symm
      · show unique_count_of (amino_acid_frequency order (normSeq x.sequence))
          = x.unique_count
        rw [hgs, ← hgfreq]
        exact hguc.symm
      · show amino_acid_frequency order (normSeq x.sequence) = x.frequencies
        rw [hgs]
        exact hgfreq.symm
    · rw [if_neg hxid]
      rfl
  rw [hrows, List.map_id]

theorem edit_self_noop_witness :
    edit_protein VALID_AMINO_ACIDS
      (analyze VALID_AMINO_ACIDS initialStore "p".toList "AAC".toList).2
      (((analyze VALID_AMINO_ACIDS initialStore "p".toList
          "AAC".toList).2.rows.head (by decide)).id)
      (((analyze VALID_AMINO_ACIDS initialStore "p".toList
          "AAC".toList).2.rows.head (by decide)).name)
      (((analyze VALID_AMINO_ACIDS initialStore "p".toList
          "AAC".toList).2.rows.head (by decide)).sequence) =
    (SUCCESS_MSG,
     (analyze VALID_AMINO_ACIDS initialStore "p".toList "AAC".toList).2) :=
  edit_self_noop VALID_AMINO_ACIDS
    (analyze VALID_AMINO_ACIDS initialStore "p".toList "AAC".toList).2
    ((analyze VALID_AMINO_ACIDS initialStore "p".toList
      "AAC".toList).2.rows.head (by decide))
    (Reaches.analyze_step initialStore "p".toList "AAC".toList Reaches.init)
    (List.head_mem _)
